import Mathlib

/-!
Verification of the kinematic-tree construction core of the robot-parse
library: the description adapter, the topology builder, the breadth-first
traversal order, the pose and screw propagation passes, the joint motion
model and the spatial inertia transform.

The repository holds two variants of the crate side by side:
the MultiBodyGraph path (src/src/lib.rs: parse_robot, move_joint,
joint_screw, relative_pose) and the Model path (src/src/urdf.rs with
src/src/utils.rs, src/src/bfs.rs and src/src/spatial_inertial.rs:
from_urdf_string, temp_link_map, fullfill_link_map, joint_twist,
to_local_spatial_inertial).  Both are embedded below.

External collaborators that the spec places out of scope are modelled as
the spec directs: the SE(3)/se(3) algebra of the liealg crate is an
abstract capability (structure Alg), the petgraph directed graph map is an
edge list with insertion-ordered adjacency, the std HashMap is either a
function with Option values or an association list collected with
last-insert-wins keys, and a Rust panic (unwrap, expect, explicit panic)
is the none case of an Option valued embedding.
-/

namespace RobotParse

/-- Joint kinds of the external description format (the urdf_rs crate). -/
inductive JointKind where
  | revolute
  | continuous
  | prismatic
  | fixed
  | floating
  | planar
  | spherical
deriving DecidableEq

/-- Pose record of the description: roll-pitch-yaw Euler angles and an xyz
translation, over an abstract scalar type V standing for f64. -/
structure PoseD (V : Type) where
  rpy : V × V × V
  xyz : V × V × V
deriving DecidableEq

/-- Joint record of the external description (urdf_rs Joint): name, kind,
axis vector, origin transform and the names of the parent and child links. -/
structure JointD (V : Type) where
  name : String
  joint_type : JointKind
  axis : V × V × V
  origin : PoseD V
  parent : String
  child : String
deriving DecidableEq

/-- Inertial block of a link: inertial-frame pose, mass and the six
components of the symmetric 3x3 inertia tensor. -/
structure InertialD (V : Type) where
  origin : PoseD V
  mass : V
  ixx : V
  ixy : V
  ixz : V
  iyy : V
  iyz : V
  izz : V
deriving DecidableEq

/-- Link record of the external description (urdf_rs Link). -/
structure LinkD (V : Type) where
  name : String
  inertial : InertialD V
deriving DecidableEq

/-- Parsed robot description (urdf_rs Robot): ordered links and joints.
The materials list of the source is a pass-through field never read by the
core and is omitted. -/
structure RobotD (V : Type) where
  name : String
  links : List (LinkD V)
  joints : List (JointD V)

/-- Modelled from the spec: the SE(3)/se(3) algebra capability supplied by
the external liealg crate, kept abstract exactly as section 9 of the spec
directs (compose, identity, exponential map, scalar scaling of a twist,
adjoint action, twist construction), together with the scalar arithmetic
of f64 used by the normalisation code. P is the pose group SE(3), S the
twist algebra se(3) and V the scalar type. -/
structure Alg (P S V : Type) where
  pid : P
  pmul : P → P → P
  pexp : S → P
  smul : S → V → S
  adjAct : P → S → S
  se3new : V × V × V → V × V × V → S
  szero : S
  fromEuler : V → V → V → V × V × V → P
  fsqrt : V → V
  fdiv : V → V → V
  fmul : V → V → V
  fadd : V → V → V
  fzero : V

variable {P S V I : Type}

/-- Embedding of joint_screw (src/src/lib.rs lines 222 to 238): a revolute
or continuous joint yields a screw whose angular part is the axis divided
by its Euclidean norm and whose linear part is zero; every other kind,
prismatic and fixed included, yields none. -/
def joint_screwA (A : Alg P S V) (j : JointD V) : Option S :=
  match j.joint_type with
  | .revolute | .continuous =>
      let norm := A.fsqrt (A.fadd (A.fadd (A.fmul j.axis.1 j.axis.1)
        (A.fmul j.axis.2.1 j.axis.2.1)) (A.fmul j.axis.2.2 j.axis.2.2))
      some (A.se3new
        (A.fdiv j.axis.1 norm, A.fdiv j.axis.2.1 norm, A.fdiv j.axis.2.2 norm)
        (A.fzero, A.fzero, A.fzero))
  | _ => none

/-- Embedding of joint_twist (src/src/utils.rs lines 172 to 198): revolute
and continuous joints give an angular screw along the normalised axis,
prismatic joints a linear screw along the normalised axis, fixed joints the
zero twist. The source panics on the remaining kinds (floating, planar,
spherical); the panic is modelled as none. -/
def joint_twistA (A : Alg P S V) (j : JointD V) : Option S :=
  match j.joint_type with
  | .revolute | .continuous =>
      let norm := A.fsqrt (A.fadd (A.fadd (A.fmul j.axis.1 j.axis.1)
        (A.fmul j.axis.2.1 j.axis.2.1)) (A.fmul j.axis.2.2 j.axis.2.2))
      some (A.se3new
        (A.fdiv j.axis.1 norm, A.fdiv j.axis.2.1 norm, A.fdiv j.axis.2.2 norm)
        (A.fzero, A.fzero, A.fzero))
  | .prismatic =>
      let norm := A.fsqrt (A.fadd (A.fadd (A.fmul j.axis.1 j.axis.1)
        (A.fmul j.axis.2.1 j.axis.2.1)) (A.fmul j.axis.2.2 j.axis.2.2))
      some (A.se3new (A.fzero, A.fzero, A.fzero)
        (A.fdiv j.axis.1 norm, A.fdiv j.axis.2.1 norm, A.fdiv j.axis.2.2 norm))
  | .fixed => some A.szero
  | _ => none

/-- Embedding of origin_to_se3 (src/src/lib.rs lines 216 to 220):
SE3 from Euler angles and translation. -/
def origin_to_se3A (A : Alg P S V) (o : PoseD V) : P :=
  A.fromEuler o.rpy.1 o.rpy.2.1 o.rpy.2.2 o.xyz

/-- Embedding of joint_relative_pose (src/src/lib.rs lines 212 to 214). -/
def joint_relative_poseA (A : Alg P S V) (j : JointD V) : P :=
  origin_to_se3A A j.origin

/-- Embedding of pose_to_se3 (src/src/utils.rs lines 118 to 121), the Model
path twin of origin_to_se3. -/
def pose_to_se3A (A : Alg P S V) (o : PoseD V) : P :=
  A.fromEuler o.rpy.1 o.rpy.2.1 o.rpy.2.2 o.xyz

/-- Embedding of relative_pose (src/src/lib.rs lines 202 to 210): the zero
configuration transform composed with the exponential of the scaled motion
screw when the joint has one, the zero configuration transform alone
otherwise. -/
def relative_poseA (A : Alg P S V) (j : JointD V) (v : V) : P :=
  match joint_screwA A j with
  | some s => A.pmul (joint_relative_poseA A j) (A.pexp (A.smul s v))
  | none => joint_relative_poseA A j

/-! Graph model. The petgraph DiGraphMap over usize node ids is modelled as
an edge list with insertion order preserved; adding an existing edge is a
no-op, and directed neighbor queries scan the list in insertion order. -/

/-- Edge insertion of the DiGraphMap: adding an already present edge leaves
the graph unchanged. -/
def insertEdge (es : List (ℕ × ℕ)) (e : ℕ × ℕ) : List (ℕ × ℕ) :=
  if e ∈ es then es else es ++ [e]

/-- Outgoing neighbors of a node, in edge insertion order. -/
def childrenOfEdges : List (ℕ × ℕ) → ℕ → List ℕ
  | [], _ => []
  | e :: es, p => if e.1 = p then e.2 :: childrenOfEdges es p else childrenOfEdges es p

/-- First incoming neighbor of a node in insertion order; this is how both
paths look up the parent of a link. -/
def parentOfEdges : List (ℕ × ℕ) → ℕ → Option ℕ
  | [], _ => none
  | e :: es, c => if e.2 = c then some e.1 else parentOfEdges es c

/-- One neighbor expansion step of the petgraph Bfs: successors are visited
in order, each one not yet discovered is marked discovered and pushed at
the back of the queue. The first component is the discovered list, the
second the queue. -/
def pushNew (disc queue : List ℕ) : List ℕ → List ℕ × List ℕ
  | [] => (disc, queue)
  | s :: ss =>
      if s ∈ disc then pushNew disc queue ss
      else pushNew (disc ++ [s]) (queue ++ [s]) ss

/-- Fuelled core of the petgraph breadth-first iterator: pop the front of
the queue, push its undiscovered successors, emit the popped node. The
fuel only bounds the number of pops; with fuel at least the node count it
never runs out (the petgraph iterator terminates because the node set is
finite). -/
def bfsAux (C : ℕ → List ℕ) : ℕ → List ℕ → List ℕ → List ℕ
  | 0, _, _ => []
  | _ + 1, [], _ => []
  | fuel + 1, q :: qs, disc =>
      let r := pushNew disc qs (C q)
      q :: bfsAux C fuel r.2 r.1

/-- Embedding of bfs (src/src/bfs.rs lines 21 to 25) and of
MultiBodyGraph::bfs (src/src/lib.rs lines 33 to 40): breadth-first order
from the start node, with n the number of nodes of the graph. -/
def bfsList (n : ℕ) (C : ℕ → List ℕ) (start : ℕ) : List ℕ :=
  bfsAux C n [start] [start]

/-- Reachability along the directed edges, used to state that a built tree
is connected from its root. -/
inductive Reaches (C : ℕ → List ℕ) (r : ℕ) : ℕ → Prop where
  | refl : Reaches C r r
  | step : ∀ {p c}, Reaches C r p → c ∈ C p → Reaches C r c

/-- Pointwise insert into a HashMap modelled as a function with Option
values. -/
def updMap {α : Type} (m : ℕ → Option α) (k : ℕ) (v : α) : ℕ → Option α :=
  fun i => if i = k then some v else m i

/-! The MultiBodyGraph path (src/src/lib.rs). -/

/-- Embedding of the Link struct of src/src/lib.rs (lines 12 to 20). -/
structure LinkL (P S V : Type) where
  joint : Option (JointD V)
  joint_screw : Option S
  joint_relative_pose : P
  joint_value : V
  global_pose : P
  urdf_link : LinkD V

/-- Embedding of the MultiBodyGraph struct (src/src/lib.rs lines 22 to 30).
The HashMap from usize to Link is a function with Option values, and n
records the number of links, which is the size of the node set the source
keeps inside the DiGraphMap. -/
structure MBG (P S V : Type) where
  n : ℕ
  edges : List (ℕ × ℕ)
  link_map : ℕ → Option (LinkL P S V)
  root_index : ℕ
  leafs_index : List ℕ
  name : String

/-- One iteration of the move_joint loop (src/src/lib.rs lines 77 to 88):
a link with a parent gets its global pose recomputed as the parent global
pose composed with the relative pose of its joint at the current joint
value; the root (no incoming edge) is left untouched. The unwraps of the
source are the none cases. -/
def moveStep (A : Alg P S V) (es : List (ℕ × ℕ)) (m : ℕ → Option (LinkL P S V))
    (l : ℕ) : Option (ℕ → Option (LinkL P S V)) :=
  match parentOfEdges es l with
  | none => some m
  | some p =>
    match m p, m l with
    | some plink, some link =>
      match link.joint with
      | some j =>
          let gp := A.pmul plink.global_pose (relative_poseA A j link.joint_value)
          some (updMap m l { link with global_pose := gp })
      | none => none
    | _, _ => none

/-- Embedding of MultiBodyGraph::move_joint (src/src/lib.rs lines 74 to
89): one full propagation pass over the breadth-first order from the root. -/
def MBG.move_joint (A : Alg P S V) (g : MBG P S V) : Option (MBG P S V) := do
  let ord := bfsList g.n (childrenOfEdges g.edges) g.root_index
  let m ← ord.foldlM (moveStep A g.edges) g.link_map
  some { g with link_map := m }

/-- Lookup in the name-to-index HashMap of parse_robot: collected from the
enumerated links in order, so for a duplicated name the last insert wins. -/
def linkNameIndex (links : List (LinkD V)) (s : String) : Option ℕ :=
  ((links.enum.filter (fun p => p.2.name == s)).getLast?).map (fun p => p.1)

/-- The joint_links pairing of parse_robot (src/src/lib.rs lines 125 to
135): each link with the first joint whose child name equals the link
name. -/
def jointLinks (r : RobotD V) : List (Option (JointD V) × LinkD V) :=
  r.links.map (fun l => (r.joints.find? (fun j => j.child == l.name), l))

/-- The root search of parse_robot (src/src/lib.rs lines 137 to 141): the
first link with no joint; the expect of the source is the none case. -/
def rootIndex (r : RobotD V) : Option ℕ :=
  ((jointLinks r).find? (fun p => p.1.isNone)).bind
    (fun p => linkNameIndex r.links p.2.name)

/-- The leaf search of parse_robot (src/src/lib.rs lines 143 to 152):
links that are the parent of no joint. -/
def leafIndices (r : RobotD V) : List ℕ :=
  ((jointLinks r).filter
      (fun p => r.joints.all (fun j => !(j.parent == p.2.name)))).filterMap
    (fun p => linkNameIndex r.links p.2.name)

/-- The edge construction of parse_robot (src/src/lib.rs lines 161 to
167): one edge per joint from the parent link index to the child link
index; an unresolvable name is an unwrap panic, modelled as none. -/
def buildEdgesL (r : RobotD V) : Option (List (ℕ × ℕ)) :=
  (jointLinks r).foldlM
    (fun es p =>
      match p.1 with
      | none => some es
      | some j => do
          let pi ← linkNameIndex r.links j.parent
          let ci ← linkNameIndex r.links j.child
          some (insertEdge es (pi, ci)))
    []

/-- The Link value built for each entry of the link map of parse_robot
(src/src/lib.rs lines 169 to 187). -/
def mkLinkL (A : Alg P S V) (j : Option (JointD V)) (l : LinkD V) : LinkL P S V :=
  { joint_value := A.fzero
    joint_screw := j.bind (fun jo => joint_screwA A jo)
    joint_relative_pose := (j.map (fun jo => joint_relative_poseA A jo)).getD A.pid
    global_pose := A.pid
    urdf_link := l
    joint := j }

/-- The link map of parse_robot: inserted per link keyed by the index of
its name, later inserts overwriting earlier ones as in a HashMap. -/
def buildLinkMapL (A : Alg P S V) (r : RobotD V) : ℕ → Option (LinkL P S V) :=
  (jointLinks r).foldl
    (fun m p =>
      match linkNameIndex r.links p.2.name with
      | some i => updMap m i (mkLinkL A p.1 p.2)
      | none => m)
    (fun _ => none)

/-- Embedding of parse_robot (src/src/lib.rs lines 115 to 200): index the
links, pair each link with its joint, find the root, build the graph and
the link map, then run one move_joint pass. A panic anywhere is none. -/
def parse_robot (A : Alg P S V) (r : RobotD V) : Option (MBG P S V) := do
  let root ← rootIndex r
  let es ← buildEdgesL r
  let g : MBG P S V :=
    { n := r.links.length
      edges := es
      link_map := buildLinkMapL A r
      root_index := root
      leafs_index := leafIndices r
      name := r.name }
  g.move_joint A

/-- The joint name search of set_joint_value: scan the link map values for
a link whose joint carries the requested name. The iteration order of a
HashMap is unspecified; the model scans the keys in increasing order,
which the settled claims do not depend on. -/
def findJointIdx (g : MBG P S V) (nm : String) : Option ℕ :=
  (List.range g.n).find? (fun i =>
    match g.link_map i with
    | some lk =>
      match lk.joint with
      | some j => j.name == nm
      | none => false
    | none => false)

/-- Embedding of MultiBodyGraph::set_joint_value (src/src/lib.rs lines 62
to 72): each entry of the requested mapping is applied in turn; an unknown
joint name hits the unwrap of the source, modelled as the error case
carrying the state mutated so far, since the mutations before the panic
have already happened through the mutable borrow. -/
def setJointsAux (g : MBG P S V) : List (String × V) → Except (MBG P S V) (MBG P S V)
  | [] => .ok g
  | (nm, v) :: rest =>
    match findJointIdx g nm with
    | none => .error g
    | some i =>
      match g.link_map i with
      | some lk =>
          setJointsAux
            { g with link_map := updMap g.link_map i { lk with joint_value := v } }
            rest
      | none => .error g

/-- Entry point of set_joint_value on a list of name and value pairs, in
one possible iteration order of the argument HashMap. -/
def MBG.set_joint_value (g : MBG P S V) (vals : List (String × V)) :
    Except (MBG P S V) (MBG P S V) :=
  setJointsAux g vals

/-! The Model path (src/src/urdf.rs and src/src/utils.rs). -/

/-- Embedding of the Link struct used by the Model path, with fields
reconstructed from their uses in src/src/utils.rs (construct_link_map and
fullfill_link_map); the struct declaration itself lives in the part of the
crate root not present under src. The inertia slot is kept abstract as I,
its matrix content being settled separately with the spatial inertia
claims. The Joint wrapper struct around the optional urdf joint is
flattened into the Option. -/
structure LinkM (P S V I : Type) where
  space_spatial_screw : S
  local_spatial_screw : S
  global_zero_pose : P
  parent_zero_pose : P
  local_spatial_inertial : I
  joint : Option (JointD V)

/-- Entry of the temporary map of temp_link_map: link id, optional joint
and link, keyed by the parent link name of the joint (none for the root). -/
def tempPairs (r : RobotD V) : List (Option String × (ℕ × Option (JointD V) × LinkD V)) :=
  r.links.enum.map (fun p =>
    let j := r.joints.find? (fun jt => jt.child == p.2.name)
    (j.map (fun jt => jt.parent), (p.1, j, p.2)))

/-- HashMap collection with last-insert-wins keys: an entry survives only
when no later entry carries the same key. -/
def dedupKeys {β : Type} : List (Option String × β) → List (Option String × β)
  | [] => []
  | e :: rest =>
      if rest.any (fun p => p.1 == e.1) then dedupKeys rest else e :: dedupKeys rest

/-- Embedding of temp_link_map (src/src/utils.rs lines 40 to 56): the
pairs of tempPairs collected into a HashMap keyed by parent link name, so
at most one entry survives per distinct key. -/
def temp_link_map (r : RobotD V) : List (Option String × (ℕ × Option (JointD V) × LinkD V)) :=
  dedupKeys (tempPairs r)

/-- Lookup in the collected temporary map. -/
def hmGetT {β : Type} (T : List (Option String × β)) (k : Option String) : Option β :=
  (T.find? (fun p => p.1 == k)).map (fun p => p.2)

/-- Embedding of construct_link_graph (src/src/utils.rs lines 58 to 77):
for every entry, an edge from its own index to the index of the entry
keyed by its link name, when present. -/
def construct_link_graph (T : List (Option String × (ℕ × Option (JointD V) × LinkD V))) :
    List (ℕ × ℕ) :=
  T.foldl
    (fun es e =>
      match hmGetT T (some e.2.2.2.name) with
      | some c => insertEdge es (e.2.1, c.1)
      | none => es)
    []

/-- The empty Link value built by construct_link_map (src/src/utils.rs
lines 79 to 107): identity screws and poses, the spatial inertia of the
link, and the joint. The si argument stands for spatial_inertia
(src/src/utils.rs lines 109 to 116). -/
def mkLinkM (A : Alg P S V) (si : LinkD V → I) (j : Option (JointD V)) (l : LinkD V) :
    LinkM P S V I :=
  { space_spatial_screw := A.szero
    local_spatial_screw := A.szero
    global_zero_pose := A.pid
    parent_zero_pose := A.pid
    local_spatial_inertial := si l
    joint := j }

/-- Embedding of construct_link_map: the temporary map re-keyed by link
id. -/
def construct_link_map (A : Alg P S V) (si : LinkD V → I)
    (T : List (Option String × (ℕ × Option (JointD V) × LinkD V))) :
    ℕ → Option (LinkM P S V I) :=
  T.foldl (fun m e => updMap m e.2.1 (mkLinkM A si e.2.2.1 e.2.2.2)) (fun _ => none)

/-- One iteration of the fullfill_link_map loop (src/src/utils.rs lines
128 to 169): a link with a parent gets its parent zero pose, global zero
pose, local screw and global screw filled in; the root is skipped. The
unwraps and the panic inside joint_twist are the none cases. -/
def fullfillStep (A : Alg P S V) (es : List (ℕ × ℕ))
    (m : ℕ → Option (LinkM P S V I)) (l : ℕ) : Option (ℕ → Option (LinkM P S V I)) :=
  match parentOfEdges es l with
  | none => some m
  | some p =>
    match m p, m l with
    | some plink, some link =>
      match link.joint with
      | some j =>
        match joint_twistA A j with
        | some twist =>
            let rel := pose_to_se3A A j.origin
            let gp := A.pmul plink.global_zero_pose rel
            some (updMap m l
              { link with
                  parent_zero_pose := rel
                  global_zero_pose := gp
                  local_spatial_screw := twist
                  space_spatial_screw := A.adjAct gp twist })
        | none => none
      | none => none
    | _, _ => none

/-- Embedding of fullfill_link_map (src/src/utils.rs lines 123 to 170):
the propagation pass of the Model path over a given breadth-first order. -/
def fullfill_link_map (A : Alg P S V) (es : List (ℕ × ℕ))
    (m : ℕ → Option (LinkM P S V I)) (ord : List ℕ) :
    Option (ℕ → Option (LinkM P S V I)) :=
  ord.foldlM (fullfillStep A es) m

/-- Embedding of the Model struct (fields reconstructed from their uses in
src/src/urdf.rs). -/
structure ModelM (P S V I : Type) where
  links : List (LinkM P S V I)
  link_graph : List (ℕ × ℕ)
  bfs : List ℕ

/-- Embedding of Model::from_urdf_string after the external XML parse
(src/src/urdf.rs lines 8 to 44): temporary map, start entry (defaulting to
index 0 when no entry lacks a parent), graph, link map, breadth-first
order, propagation pass, then the link values sorted by ascending id. The
io Result of the source can only be an error inside the external parser,
so the post-parse pipeline returns none exactly on a panic. -/
def fromUrdfRobot (A : Alg P S V) (si : LinkD V → I) (r : RobotD V) :
    Option (ModelM P S V I) := do
  let T := temp_link_map r
  let start := ((T.find? (fun p => p.1.isNone)).map (fun p => p.2.1)).getD 0
  let link_graph := construct_link_graph T
  let lm := construct_link_map A si T
  let ord := bfsList T.length (childrenOfEdges link_graph) start
  let lm2 ← fullfill_link_map A link_graph lm ord
  some
    { links := (List.range r.links.length).filterMap lm2
      link_graph := link_graph
      bfs := ord }

/-! Concrete algebra instances. AlgQ is a small computable instance used to
run the embedded pipelines on concrete descriptions; AlgFR instantiates the
scalar and screw part over the real numbers, which is what the f64
normalisation arithmetic of the joint motion model denotes. -/

/-- Computable instance of the algebra capability over the rationals, used
to evaluate the build pipelines on concrete inputs. -/
def AlgQ : Alg ℚ ((ℚ × ℚ × ℚ) × (ℚ × ℚ × ℚ)) ℚ :=
  { pid := 1
    pmul := fun a b => a * b
    pexp := fun _ => 1
    smul := fun s v =>
      ((s.1.1 * v, s.1.2.1 * v, s.1.2.2 * v), (s.2.1 * v, s.2.2.1 * v, s.2.2.2 * v))
    adjAct := fun _ s => s
    se3new := fun a b => (a, b)
    szero := ((0, 0, 0), (0, 0, 0))
    fromEuler := fun _ _ _ _ => 1
    fsqrt := fun x => x
    fdiv := fun a b => a / b
    fmul := fun a b => a * b
    fadd := fun a b => a + b
    fzero := 0 }

/-- Instance of the algebra capability whose scalar arithmetic is the real
arithmetic denoted by the f64 operations of the source (square root,
division, product, sum) and whose twists are explicit angular and linear
component triples. The pose part is irrelevant to the joint motion model
and is trivial. -/
noncomputable def AlgFR : Alg Unit ((ℝ × ℝ × ℝ) × (ℝ × ℝ × ℝ)) ℝ :=
  { pid := ()
    pmul := fun _ _ => ()
    pexp := fun _ => ()
    smul := fun s v =>
      ((s.1.1 * v, s.1.2.1 * v, s.1.2.2 * v), (s.2.1 * v, s.2.2.1 * v, s.2.2.2 * v))
    adjAct := fun _ s => s
    se3new := fun a b => (a, b)
    szero := ((0, 0, 0), (0, 0, 0))
    fromEuler := fun _ _ _ _ => ()
    fsqrt := Real.sqrt
    fdiv := fun a b => a / b
    fmul := fun a b => a * b
    fadd := fun a b => a + b
    fzero := 0 }

/-- Trivial spatial inertia slot for runs of the Model pipeline that do not
inspect inertia values. -/
def siQ : LinkD ℚ → Unit := fun _ => ()

/-! Concrete descriptions used as witnesses and counterexamples. -/

/-- Identity origin transform. -/
def originZero : PoseD ℚ := { rpy := (0, 0, 0), xyz := (0, 0, 0) }

/-- A plain inertial block. -/
def inertialOne : InertialD ℚ :=
  { origin := originZero, mass := 1, ixx := 1, ixy := 0, ixz := 0, iyy := 1, iyz := 0, izz := 1 }

/-- Description link with the given name. -/
def mkLinkD (s : String) : LinkD ℚ := { name := s, inertial := inertialOne }

/-- Description joint with the given name, kind, axis and link names. -/
def mkJointD (nm : String) (k : JointKind) (ax : ℚ × ℚ × ℚ) (p c : String) : JointD ℚ :=
  { name := nm, joint_type := k, axis := ax, origin := originZero, parent := p, child := c }

/-- Two links, and two joints that both claim the child link arm. -/
def dupChildRobot : RobotD ℚ :=
  { name := "r"
    links := [mkLinkD "base", mkLinkD "arm"]
    joints := [mkJointD "j1" .revolute (0, 0, 1) "base" "arm",
               mkJointD "j2" .revolute (0, 0, 1) "base" "arm"] }

/-- One link that is the child of its own joint: no link lacks a joint, so
the description has no root. -/
def noRootRobot : RobotD ℚ :=
  { name := "r"
    links := [mkLinkD "a"]
    joints := [mkJointD "jl" .revolute (0, 0, 1) "a" "a"] }

/-- A joint whose parent link name resolves to no link of the set. -/
def badNameRobot : RobotD ℚ :=
  { name := "r"
    links := [mkLinkD "base", mkLinkD "arm"]
    joints := [mkJointD "jb" .revolute (0, 0, 1) "ghost" "arm"] }

/-- Two links and no joint: both links lack an incoming joint, so the root
is ambiguous. -/
def twoRootsRobot : RobotD ℚ :=
  { name := "r"
    links := [mkLinkD "r1", mkLinkD "r2"]
    joints := [] }

/-- A revolute joint whose axis is the zero vector. -/
def zeroAxisRobot : RobotD ℚ :=
  { name := "r"
    links := [mkLinkD "base", mkLinkD "arm"]
    joints := [mkJointD "jz" .revolute (0, 0, 0) "base" "arm"] }

/-- A joint of the floating kind, which the joint motion model of the
Model path does not support. -/
def floatingRobot : RobotD ℚ :=
  { name := "r"
    links := [mkLinkD "base", mkLinkD "arm"]
    joints := [mkJointD "jf" .floating (0, 0, 1) "base" "arm"] }

/-- Three links and two joints that share the parent link base: a branching
tree. -/
def branchRobot : RobotD ℚ :=
  { name := "r"
    links := [mkLinkD "base", mkLinkD "a", mkLinkD "b"]
    joints := [mkJointD "j1" .revolute (0, 0, 1) "base" "a",
               mkJointD "j2" .revolute (0, 0, 1) "base" "b"] }

/-- A two link chain with one revolute joint named j1. -/
def chainRobot : RobotD ℚ :=
  { name := "r"
    links := [mkLinkD "base", mkLinkD "arm"]
    joints := [mkJointD "j1" .revolute (0, 0, 1) "base" "arm"] }

/-- A prismatic joint with unit axis, on its own. -/
def prismJoint : JointD ℚ := mkJointD "jp" .prismatic (0, 0, 1) "base" "arm"

/-- A floating joint on its own. -/
def floatJoint : JointD ℚ := mkJointD "jf" .floating (0, 0, 1) "base" "arm"

/-- A fixed joint on its own. -/
def fixJoint : JointD ℚ := mkJointD "jx" .fixed (0, 0, 1) "base" "arm"

/-- A revolute joint with zero axis, on its own. -/
def zeroAxisJoint : JointD ℚ := mkJointD "jz" .revolute (0, 0, 0) "base" "arm"

/-! The spatial inertia transform (src/src/spatial_inertial.rs), modelled
concretely over the rationals: the f64 matrix arithmetic of nalgebra is
exact rational arithmetic here, 3x3 matrices are indexed by Fin 3 and 6x6
matrices by a sum of two Fin 3 blocks. The SE3 inverse and adjoint matrix
of the external liealg crate are modelled from the spec with the standard
formulas. -/

/-- Three by three rational matrix. -/
abbrev Mat3 : Type := Matrix (Fin 3) (Fin 3) ℚ

/-- Six by six rational matrix, indexed blockwise. -/
abbrev Mat6 : Type := Matrix (Fin 3 ⊕ Fin 3) (Fin 3 ⊕ Fin 3) ℚ

/-- Modelled from the spec: a rigid transform of the external algebra,
rotation matrix plus translation. -/
structure SE3Q where
  rot : Mat3
  trans : Fin 3 → ℚ

/-- Skew symmetric matrix of a 3-vector. -/
def skewQ (v : Fin 3 → ℚ) : Mat3 :=
  Matrix.of ![![0, -v 2, v 1], ![v 2, 0, -v 0], ![-v 1, v 0, 0]]

/-- Modelled from the spec: the inverse of a rigid transform. -/
def SE3Q.inv (T : SE3Q) : SE3Q :=
  { rot := T.rot.transpose, trans := -(T.rot.transpose.mulVec T.trans) }

/-- Modelled from the spec: the 6x6 adjoint matrix of a rigid transform,
rotation blocks on the diagonal and the skew of the translation times the
rotation in the lower left. -/
def SE3Q.adjointM (T : SE3Q) : Mat6 :=
  Matrix.fromBlocks T.rot 0 (skewQ T.trans * T.rot) T.rot

/-- Overwriting the top left 3x3 block of a 6x6 matrix, the model of the
fixed_view_mut copy of the source. -/
def overwriteTopLeft (M : Mat6) (B : Mat3) : Mat6 :=
  fun i j =>
    match i, j with
    | .inl a, .inl b => B a b
    | .inl a, .inr b => M (.inl a) (.inr b)
    | .inr a, .inl b => M (.inr a) (.inl b)
    | .inr a, .inr b => M (.inr a) (.inr b)

/-- Embedding of to_local_spatial_inertial (src/src/spatial_inertial.rs
lines 4 to 14): start from the diagonal matrix with the mass on all six
diagonal entries, overwrite the top left block with the inertia tensor,
then conjugate with the adjoint matrix of the inverse of the inertial
frame pose. The from_column_slice round trip of the source reproduces the
adjoint matrix unchanged. -/
def to_local_spatial_inertial (inertia_frame : SE3Q) (inertia : Mat3) (mass : ℚ) : Mat6 :=
  let i_b := overwriteTopLeft (Matrix.diagonal fun _ => mass) inertia
  let b_t_a := inertia_frame.inv
  let adj_b_t_a := b_t_a.adjointM
  adj_b_t_a.transpose * i_b * adj_b_t_a

/-- The tree shape invariants that a built graph satisfies, as the spec
states them in section 3: nodes are the ids below n, edges stay inside the
node set, a node listed among the children of a parent has that parent as
its unique first incoming neighbor, the root has no incoming edge, and
every node is reachable from the root. -/
structure IsTreeGraph (n : ℕ) (es : List (ℕ × ℕ)) (root : ℕ) : Prop where
  root_lt : root < n
  edge_bound : ∀ e ∈ es, e.1 < n ∧ e.2 < n
  coh : ∀ p c, p < n → c ∈ childrenOfEdges es p → parentOfEdges es c = some p
  root_free : parentOfEdges es root = none
  reach : ∀ x, x < n → Reaches (childrenOfEdges es) root x

/-- Observation of one set_joint_value call on the two link chain: the arm
joint value before the call and at the moment of the panic raised by the
unknown second name. -/
def c8Observation : Option (Option ℚ × Option ℚ) :=
  match parse_robot AlgQ chainRobot with
  | some g =>
    match g.set_joint_value [("j1", (5 : ℚ)), ("nope", 7)] with
    | .error g2 =>
        some ((g.link_map 1).map LinkL.joint_value, (g2.link_map 1).map LinkL.joint_value)
    | .ok _ => none
  | none => none

/-- A MultiBodyGraph with no links, used to instantiate the unknown name
behaviour of set_joint_value. -/
def mbgEmpty : MBG ℚ ((ℚ × ℚ × ℚ) × (ℚ × ℚ × ℚ)) ℚ :=
  { n := 0
    edges := []
    link_map := fun _ => none
    root_index := 0
    leafs_index := []
    name := "e" }

/-- A concrete two link MultiBodyGraph state: root at id 0, one revolute
joint at id 1, all global poses at the identity. -/
def gW : MBG ℚ ((ℚ × ℚ × ℚ) × (ℚ × ℚ × ℚ)) ℚ :=
  { n := 2
    edges := [(0, 1)]
    link_map := fun k =>
      if k = 0 then some (mkLinkL AlgQ none (mkLinkD "base"))
      else if k = 1 then
        some (mkLinkL AlgQ (some (mkJointD "j1" .revolute (0, 0, 1) "base" "arm")) (mkLinkD "arm"))
      else none
    root_index := 0
    leafs_index := [1]
    name := "w" }

/-- A concrete two link Model path state for the propagation pass. -/
def mW : ℕ → Option (LinkM ℚ ((ℚ × ℚ × ℚ) × (ℚ × ℚ × ℚ)) ℚ Unit) :=
  fun k =>
    if k = 0 then some (mkLinkM AlgQ siQ none (mkLinkD "base"))
    else if k = 1 then
      some (mkLinkM AlgQ siQ (some (mkJointD "j1" .revolute (0, 0, 1) "base" "arm")) (mkLinkD "arm"))
    else none

/-- Identity origin over the reals. -/
noncomputable def originZeroR : PoseD ℝ := { rpy := (0, 0, 0), xyz := (0, 0, 0) }

/-- A revolute joint over the reals with axis of length two. -/
noncomputable def revJointR : JointD ℝ :=
  { name := "jr"
    joint_type := .revolute
    axis := (0, 0, 2)
    origin := originZeroR
    parent := "base"
    child := "arm" }

/-- A concrete rigid transform with a unit offset, used to instantiate the
spatial inertia transform. -/
def se3qW : SE3Q := { rot := 1, trans := ![1, 0, 0] }

/-! Basic facts about the edge list graph. -/

theorem childrenOfEdges_mem (es : List (ℕ × ℕ)) (p c : ℕ) :
    c ∈ childrenOfEdges es p ↔ (p, c) ∈ es := by
  induction es with
  | nil => simp [childrenOfEdges]
  | cons e es ih =>
    obtain ⟨a, b⟩ := e
    by_cases h : a = p
    · subst h
      simp [childrenOfEdges, ih, Prod.ext_iff]
    · simp only [childrenOfEdges, if_neg h, ih, List.mem_cons, Prod.ext_iff]
      exact ⟨fun hm => Or.inr hm, fun hm => hm.elim (fun hc => absurd hc.1.symm h) id⟩

theorem parentOfEdges_mem (es : List (ℕ × ℕ)) (c p : ℕ)
    (h : parentOfEdges es c = some p) : (p, c) ∈ es := by
  induction es with
  | nil => simp [parentOfEdges] at h
  | cons e es ih =>
    obtain ⟨a, b⟩ := e
    by_cases hb : b = c
    · subst hb
      simp [parentOfEdges] at h
      simp [h]
    · simp [parentOfEdges, hb] at h
      exact List.mem_cons_of_mem _ (ih h)

/-! Properties of the neighbor expansion step. -/

theorem pushNew_spec (ss : List ℕ) : ∀ disc queue : List ℕ,
    ∃ nw : List ℕ,
      (pushNew disc queue ss).1 = disc ++ nw ∧
      (pushNew disc queue ss).2 = queue ++ nw ∧
      nw.Nodup ∧
      (∀ x ∈ nw, x ∈ ss ∧ x ∉ disc) ∧
      (∀ x ∈ ss, x ∈ disc ∨ x ∈ nw) := by
  induction ss with
  | nil =>
    intro disc queue
    exact ⟨[], by simp [pushNew], by simp [pushNew], by simp, by simp, by simp⟩
  | cons s ss ih =>
    intro disc queue
    by_cases hs : s ∈ disc
    · obtain ⟨nw, h1, h2, h3, h4, h5⟩ := ih disc queue
      refine ⟨nw, ?_, ?_, h3, ?_, ?_⟩
      · simpa [pushNew, hs] using h1
      · simpa [pushNew, hs] using h2
      · exact fun x hx => ⟨List.mem_cons_of_mem _ (h4 x hx).1, (h4 x hx).2⟩
      · intro x hx
        rcases List.mem_cons.mp hx with rfl | hx
        · exact Or.inl hs
        · exact h5 x hx
    · obtain ⟨nw, h1, h2, h3, h4, h5⟩ := ih (disc ++ [s]) (queue ++ [s])
      refine ⟨s :: nw, ?_, ?_, ?_, ?_, ?_⟩
      · rw [pushNew, if_neg hs, h1, List.append_assoc]
        simp
      · rw [pushNew, if_neg hs, h2, List.append_assoc]
        simp
      · refine List.nodup_cons.mpr ⟨fun hmem => ?_, h3⟩
        exact (h4 s hmem).2 (by simp)
      · intro x hx
        rcases List.mem_cons.mp hx with rfl | hx
        · exact ⟨List.mem_cons_self _ _, hs⟩
        · refine ⟨List.mem_cons_of_mem _ (h4 x hx).1, fun hd => (h4 x hx).2 ?_⟩
          simp [hd]
      · intro x hx
        rcases List.mem_cons.mp hx with rfl | hx
        · exact Or.inr (List.mem_cons_self _ _)
        · rcases h5 x hx with hd | hn
          · rcases List.mem_append.mp hd with hd | hd
            · exact Or.inl hd
            · simp at hd
              exact Or.inr (hd ▸ List.mem_cons_self _ _)
          · exact Or.inr (List.mem_cons_of_mem _ hn)

/-! Invariant lemmas about the fuelled breadth-first iterator. -/

theorem bfsAux_pred {Q : ℕ → Prop} (C : ℕ → List ℕ)
    (hC : ∀ p, Q p → ∀ c ∈ C p, Q c) :
    ∀ fuel queue disc, (∀ x ∈ queue, Q x) →
      ∀ x ∈ bfsAux C fuel queue disc, Q x := by
  intro fuel
  induction fuel with
  | zero => intro queue disc _ x hx; simp [bfsAux] at hx
  | succ fuel ih =>
    intro queue disc hq x hx
    match queue with
    | [] => simp [bfsAux] at hx
    | q :: qs =>
      rw [bfsAux] at hx
      obtain ⟨nw, _, h2, _, h4, _⟩ := pushNew_spec (C q) disc qs
      rcases List.mem_cons.mp hx with rfl | hx
      · exact hq x (List.mem_cons_self _ _)
      · refine ih _ _ ?_ x hx
        rw [h2]
        intro y hy
        rcases List.mem_append.mp hy with hy | hy
        · exact hq y (List.mem_cons_of_mem _ hy)
        · exact hC q (hq q (List.mem_cons_self _ _)) y (h4 y hy).1

theorem bfsAux_mem_cases (C : ℕ → List ℕ) :
    ∀ fuel queue disc, ∀ x ∈ bfsAux C fuel queue disc, x ∈ queue ∨ x ∉ disc := by
  intro fuel
  induction fuel with
  | zero => intro queue disc x hx; simp [bfsAux] at hx
  | succ fuel ih =>
    intro queue disc x hx
    match queue with
    | [] => simp [bfsAux] at hx
    | q :: qs =>
      rw [bfsAux] at hx
      obtain ⟨nw, h1, h2, _, h4, _⟩ := pushNew_spec (C q) disc qs
      rcases List.mem_cons.mp hx with rfl | hx
      · exact Or.inl (List.mem_cons_self _ _)
      · rcases ih _ _ x hx with hq2 | hd2
        · rw [h2] at hq2
          rcases List.mem_append.mp hq2 with hy | hy
          · exact Or.inl (List.mem_cons_of_mem _ hy)
          · exact Or.inr (h4 x hy).2
        · rw [h1] at hd2
          exact Or.inr fun hd => hd2 (List.mem_append.mpr (Or.inl hd))

theorem bfsAux_nodup (C : ℕ → List ℕ) :
    ∀ fuel queue disc, queue.Nodup → (∀ x ∈ queue, x ∈ disc) →
      (bfsAux C fuel queue disc).Nodup := by
  intro fuel
  induction fuel with
  | zero => intro queue disc _ _; simp [bfsAux]
  | succ fuel ih =>
    intro queue disc hnd hqd
    match queue with
    | [] => simp [bfsAux]
    | q :: qs =>
      rw [bfsAux]
      obtain ⟨nw, h1, h2, h3, h4, _⟩ := pushNew_spec (C q) disc qs
      have hqdisc : q ∈ disc := hqd q (List.mem_cons_self _ _)
      refine List.nodup_cons.mpr ⟨?_, ?_⟩
      · intro hmem
        rcases bfsAux_mem_cases C _ _ _ q hmem with hq2 | hd2
        · rw [h2] at hq2
          rcases List.mem_append.mp hq2 with hy | hy
          · exact (List.nodup_cons.mp hnd).1 hy
          · exact (h4 q hy).2 hqdisc
        · rw [h1] at hd2
          exact hd2 (List.mem_append.mpr (Or.inl hqdisc))
      · refine ih _ _ ?_ ?_
        · rw [h2]
          refine List.Nodup.append (List.nodup_cons.mp hnd).2 h3 ?_
          intro y hy hyn
          exact (h4 y hyn).2 (hqd y (List.mem_cons_of_mem _ hy))
        · rw [h1, h2]
          intro y hy
          rcases List.mem_append.mp hy with hy | hy
          · exact List.mem_append.mpr (Or.inl (hqd y (List.mem_cons_of_mem _ hy)))
          · exact List.mem_append.mpr (Or.inr hy)

theorem length_le_of_nodup_bound {l : List ℕ} {n : ℕ}
    (hd : l.Nodup) (hb : ∀ x ∈ l, x < n) : l.length ≤ n := by
  have hsub : l ⊆ List.range n := fun x hx => List.mem_range.mpr (hb x hx)
  simpa using (hd.subperm hsub).length_le

theorem bfsAux_complete (C : ℕ → List ℕ) (n : ℕ)
    (hCb : ∀ p, p < n → ∀ c ∈ C p, c < n) :
    ∀ fuel queue disc,
      disc.Nodup → (∀ x ∈ disc, x < n) → (∀ x ∈ queue, x ∈ disc) →
      queue.length + (n - disc.length) ≤ fuel →
      (∀ x ∈ queue, x ∈ bfsAux C fuel queue disc) ∧
      (∀ x ∈ bfsAux C fuel queue disc, ∀ c ∈ C x,
        c ∈ disc ∨ c ∈ bfsAux C fuel queue disc) := by
  intro fuel
  induction fuel with
  | zero =>
    intro queue disc _ _ _ hfuel
    have : queue = [] := List.length_eq_zero.mp (by omega)
    subst this
    exact ⟨by simp, by simp [bfsAux]⟩
  | succ fuel ih =>
    intro queue disc hdn hdb hqd hfuel
    match queue with
    | [] => exact ⟨by simp, by simp [bfsAux]⟩
    | q :: qs =>
      rw [bfsAux]
      obtain ⟨nw, h1, h2, h3, h4, h5⟩ := pushNew_spec (C q) disc qs
      have hqn : q < n := hdb q (hqd q (List.mem_cons_self _ _))
      have hnwb : ∀ x ∈ nw, x < n := fun x hx => hCb q hqn x (h4 x hx).1
      have hdn2 : (disc ++ nw).Nodup := by
        refine List.Nodup.append hdn h3 ?_
        intro y hy hyn
        exact (h4 y hyn).2 hy
      have hdb2 : ∀ x ∈ disc ++ nw, x < n := by
        intro x hx
        rcases List.mem_append.mp hx with hx | hx
        · exact hdb x hx
        · exact hnwb x hx
      have hqd2 : ∀ x ∈ qs ++ nw, x ∈ disc ++ nw := by
        intro x hx
        rcases List.mem_append.mp hx with hx | hx
        · exact List.mem_append.mpr (Or.inl (hqd x (List.mem_cons_of_mem _ hx)))
        · exact List.mem_append.mpr (Or.inr hx)
      have hlen2 : (disc ++ nw).length ≤ n := length_le_of_nodup_bound hdn2 hdb2
      have hfuel2 : (qs ++ nw).length + (n - (disc ++ nw).length) ≤ fuel := by
        simp only [List.length_append] at hlen2 ⊢
        simp only [List.length_cons] at hfuel
        omega
      obtain ⟨ih1, ih2⟩ := ih (qs ++ nw) (disc ++ nw) hdn2 hdb2 hqd2 hfuel2
      rw [h1, h2]
      constructor
      · intro x hx
        rcases List.mem_cons.mp hx with rfl | hx
        · exact List.mem_cons_self _ _
        · exact List.mem_cons_of_mem _ (ih1 x (List.mem_append.mpr (Or.inl hx)))
      · intro x hx c hc
        rcases List.mem_cons.mp hx with rfl | hx
        · rcases h5 c hc with hcd | hcn
          · exact Or.inl hcd
          · exact Or.inr
              (List.mem_cons_of_mem _ (ih1 c (List.mem_append.mpr (Or.inr hcn))))
        · rcases ih2 x hx c hc with hcd | hco
          · rcases List.mem_append.mp hcd with hcd | hcd
            · exact Or.inl hcd
            · exact Or.inr
                (List.mem_cons_of_mem _ (ih1 c (List.mem_append.mpr (Or.inr hcd))))
          · exact Or.inr (List.mem_cons_of_mem _ hco)

theorem bfsAux_parent_before (C : ℕ → List ℕ) (par : ℕ → Option ℕ) (n : ℕ)
    (hCb : ∀ p, p < n → ∀ c ∈ C p, c < n)
    (hcoh : ∀ p c, p < n → c ∈ C p → par c = some p) :
    ∀ fuel queue disc (E : List ℕ),
      (∀ x ∈ queue, x < n) →
      (∀ x ∈ queue, par x = none ∨ ∃ pp, par x = some pp ∧ pp ∈ E) →
      ∀ l₁ c l₂, bfsAux C fuel queue disc = l₁ ++ c :: l₂ →
      ∀ p, par c = some p → p ∈ E ∨ p ∈ l₁ := by
  intro fuel
  induction fuel with
  | zero =>
    intro queue disc E _ _ l₁ c l₂ hsplit
    rw [bfsAux] at hsplit
    cases l₁ <;> simp at hsplit
  | succ fuel ih =>
    intro queue disc E hqb hq l₁ c l₂ hsplit p hp
    match queue with
    | [] =>
      rw [bfsAux] at hsplit
      cases l₁ <;> simp at hsplit
    | q :: qs =>
      rw [bfsAux] at hsplit
      obtain ⟨nw, h1, h2, _, h4, _⟩ := pushNew_spec (C q) disc qs
      have hqn : q < n := hqb q (List.mem_cons_self _ _)
      cases l₁ with
      | nil =>
        rw [List.nil_append, List.cons.injEq] at hsplit
        obtain ⟨rfl, _⟩ := hsplit
        rcases hq q (List.mem_cons_self _ _) with hnone | ⟨pp, hpp, hppE⟩
        · rw [hnone] at hp; cases hp
        · rw [hpp] at hp
          exact Or.inl (Option.some_injective _ hp ▸ hppE)
      | cons q' l₁' =>
        rw [List.cons_append, List.cons.injEq] at hsplit
        obtain ⟨rfl, htail⟩ := hsplit
        have hqb2 : ∀ x ∈ (pushNew disc qs (C q)).2, x < n := by
          rw [h2]
          intro x hx
          rcases List.mem_append.mp hx with hx | hx
          · exact hqb x (List.mem_cons_of_mem _ hx)
          · exact hCb q hqn x (h4 x hx).1
        have hq2 : ∀ x ∈ (pushNew disc qs (C q)).2,
            par x = none ∨ ∃ pp, par x = some pp ∧ pp ∈ E ++ [q] := by
          rw [h2]
          intro x hx
          rcases List.mem_append.mp hx with hx | hx
          · rcases hq x (List.mem_cons_of_mem _ hx) with hnone | ⟨pp, hpp, hppE⟩
            · exact Or.inl hnone
            · exact Or.inr ⟨pp, hpp, List.mem_append.mpr (Or.inl hppE)⟩
          · exact Or.inr ⟨q, hcoh q x hqn (h4 x hx).1, by simp⟩
        rcases ih _ _ (E ++ [q]) hqb2 hq2 l₁' c l₂ htail p hp with hpe | hpl
        · rcases List.mem_append.mp hpe with hpe | hpe
          · exact Or.inl hpe
          · simp at hpe
            exact Or.inr (hpe ▸ List.mem_cons_self _ _)
        · exact Or.inr (List.mem_cons_of_mem _ hpl)

/-! The breadth-first order of a built tree. -/

theorem bfsTree_bound {n : ℕ} {es : List (ℕ × ℕ)} {root : ℕ}
    (h : IsTreeGraph n es root) :
    ∀ x ∈ bfsList n (childrenOfEdges es) root, x < n := by
  refine bfsAux_pred (childrenOfEdges es) ?_ n [root] [root] ?_
  · intro p _ c hc
    exact (h.edge_bound _ ((childrenOfEdges_mem es p c).mp hc)).2
  · intro x hx
    rw [List.mem_singleton] at hx
    exact hx ▸ h.root_lt

theorem bfsTree_nodup {n : ℕ} {es : List (ℕ × ℕ)} {root : ℕ} :
    (bfsList n (childrenOfEdges es) root).Nodup :=
  bfsAux_nodup (childrenOfEdges es) n [root] [root] (List.nodup_singleton _)
    (fun _ hx => hx)

theorem bfsTree_mem {n : ℕ} {es : List (ℕ × ℕ)} {root : ℕ}
    (h : IsTreeGraph n es root) :
    ∀ x, x ∈ bfsList n (childrenOfEdges es) root ↔ x < n := by
  have hCb : ∀ p, p < n → ∀ c ∈ childrenOfEdges es p, c < n := by
    intro p _ c hc
    exact (h.edge_bound _ ((childrenOfEdges_mem es p c).mp hc)).2
  obtain ⟨c1, c2⟩ := bfsAux_complete (childrenOfEdges es) n hCb n [root] [root]
    (List.nodup_singleton _)
    (by intro x hx; rw [List.mem_singleton] at hx; exact hx ▸ h.root_lt)
    (fun x hx => hx)
    (by have := h.root_lt; simp; omega)
  have hroot : root ∈ bfsList n (childrenOfEdges es) root :=
    c1 root (List.mem_singleton_self _)
  have hreach : ∀ x, Reaches (childrenOfEdges es) root x →
      x ∈ bfsList n (childrenOfEdges es) root := by
    intro x hr
    induction hr with
    | refl => exact hroot
    | step _ hc ih =>
        rcases c2 _ ih _ hc with h1 | h2
        · rw [List.mem_singleton] at h1
          exact h1 ▸ hroot
        · exact h2
  intro x
  exact ⟨fun hx => bfsTree_bound h x hx, fun hx => hreach x (h.reach x hx)⟩

theorem bfsTree_parent_in_prefix {n : ℕ} {es : List (ℕ × ℕ)} {root : ℕ}
    (h : IsTreeGraph n es root) :
    ∀ l₁ c l₂, bfsList n (childrenOfEdges es) root = l₁ ++ c :: l₂ →
    ∀ p, parentOfEdges es c = some p → p ∈ l₁ := by
  intro l₁ c l₂ hsplit p hp
  have hCb : ∀ p, p < n → ∀ c ∈ childrenOfEdges es p, c < n := by
    intro p _ c hc
    exact (h.edge_bound _ ((childrenOfEdges_mem es p c).mp hc)).2
  have := bfsAux_parent_before (childrenOfEdges es) (parentOfEdges es) n hCb h.coh
    n [root] [root] []
    (by intro x hx; rw [List.mem_singleton] at hx; exact hx ▸ h.root_lt)
    (by intro x hx; rw [List.mem_singleton] at hx; exact Or.inl (hx ▸ h.root_free))
    l₁ c l₂ hsplit p hp
  rcases this with habs | hmem
  · simp at habs
  · exact hmem

theorem bfsTree_parent_not_after {n : ℕ} {es : List (ℕ × ℕ)} {root : ℕ}
    (h : IsTreeGraph n es root) :
    ∀ l₁ c l₂, bfsList n (childrenOfEdges es) root = l₁ ++ c :: l₂ →
    ∀ p, parentOfEdges es c = some p → p ∉ c :: l₂ := by
  intro l₁ c l₂ hsplit p hp hpmem
  have hpre : p ∈ l₁ := bfsTree_parent_in_prefix h l₁ c l₂ hsplit p hp
  have hnd : (l₁ ++ c :: l₂).Nodup := hsplit ▸ bfsTree_nodup
  exact ((List.nodup_append.mp hnd).2.2) hpre hpmem

/-! The move_joint pass, as a fold over the traversal order. -/

theorem moveFold_spec {P S V : Type} (A : Alg P S V) (es : List (ℕ × ℕ)) :
    ∀ (ord : List ℕ) (m : ℕ → Option (LinkL P S V)),
      ord.Nodup →
      (∀ l₁ c l₂, ord = l₁ ++ c :: l₂ → ∀ p, parentOfEdges es c = some p → p ∉ c :: l₂) →
      (∀ l ∈ ord, (m l).isSome) →
      (∀ l ∈ ord, ∀ p, parentOfEdges es l = some p → (m p).isSome) →
      (∀ l ∈ ord, ∀ lk, m l = some lk → (parentOfEdges es l).isSome → lk.joint.isSome) →
      ∃ m', List.foldlM (moveStep A es) m ord = some m' ∧
        (∀ k, k ∉ ord → m' k = m k) ∧
        (∀ k, (m' k).map LinkL.joint = (m k).map LinkL.joint) ∧
        (∀ k, (m' k).map LinkL.joint_value = (m k).map LinkL.joint_value) ∧
        (∀ k, parentOfEdges es k = none → m' k = m k) ∧
        (∀ l ∈ ord, ∀ p, parentOfEdges es l = some p →
          ∃ lk pk j, m' l = some lk ∧ m' p = some pk ∧ lk.joint = some j ∧
            lk.global_pose = A.pmul pk.global_pose (relative_poseA A j lk.joint_value)) := by
  intro ord
  induction ord with
  | nil =>
    intro m _ _ _ _ _
    exact ⟨m, by simp, fun k _ => rfl, fun k => rfl, fun k => rfl, fun k _ => rfl,
      by simp⟩
  | cons h t ih =>
    intro m hnd hord hdom hpdom hjoint
    have hh : h ∈ h :: t := List.mem_cons_self _ _
    have hht : h ∉ t := (List.nodup_cons.mp hnd).1
    have hord' : ∀ l₁ c l₂, t = l₁ ++ c :: l₂ →
        ∀ p, parentOfEdges es c = some p → p ∉ c :: l₂ := by
      intro l₁ c l₂ ht p hp
      exact hord (h :: l₁) c l₂ (by rw [ht, List.cons_append]) p hp
    rcases hstep : parentOfEdges es h with _ | p
    · have hstep_eq : moveStep A es m h = some m := by
        simp [moveStep, hstep]
      obtain ⟨m', hfold, hframe, hjm, hvm, hpn, hpost⟩ :=
        ih m (List.nodup_cons.mp hnd).2 hord'
          (fun l hl => hdom l (List.mem_cons_of_mem _ hl))
          (fun l hl => hpdom l (List.mem_cons_of_mem _ hl))
          (fun l hl => hjoint l (List.mem_cons_of_mem _ hl))
      refine ⟨m', ?_, ?_, hjm, hvm, hpn, ?_⟩
      · rw [List.foldlM_cons, hstep_eq]
        simpa using hfold
      · intro k hk
        exact hframe k (fun hkt => hk (List.mem_cons_of_mem _ hkt))
      · intro l hl p hp
        rcases List.mem_cons.mp hl with rfl | hl
        · rw [hstep] at hp; cases hp
        · exact hpost l hl p hp
    · have hpnot : p ∉ h :: t := hord [] h t rfl p hstep
      have hpm : (m p).isSome := hpdom h hh p hstep
      have hlm : (m h).isSome := hdom h hh
      obtain ⟨pk0, hpk0⟩ := Option.isSome_iff_exists.mp hpm
      obtain ⟨lk0, hlk0⟩ := Option.isSome_iff_exists.mp hlm
      have hjs : lk0.joint.isSome := hjoint h hh lk0 hlk0 (by rw [hstep]; rfl)
      obtain ⟨j0, hj0⟩ := Option.isSome_iff_exists.mp hjs
      set lk1 : LinkL P S V := { lk0 with global_pose := A.pmul pk0.global_pose (relative_poseA A j0 lk0.joint_value) } with hlk1
      set m1 : ℕ → Option (LinkL P S V) := updMap m h lk1 with hm1def
      have hstep_eq : moveStep A es m h = some m1 := by
        simp [moveStep, hstep, hpk0, hlk0, hj0, hm1def, hlk1]
      have hm1_ne : ∀ k, k ≠ h → m1 k = m k := by
        intro k hk
        simp [hm1def, updMap, hk]
      have hm1_h : m1 h = some lk1 := by
        simp [hm1def, updMap]
      obtain ⟨m', hfold, hframe, hjm, hvm, hpn, hpost⟩ :=
        ih m1 (List.nodup_cons.mp hnd).2 hord'
          (by
            intro l hl
            have hlh : l ≠ h := fun he => hht (he ▸ hl)
            rw [hm1_ne l hlh]
            exact hdom l (List.mem_cons_of_mem _ hl))
          (by
            intro l hl p' hp'
            by_cases hph : p' = h
            · subst hph
              rw [hm1_h]
              rfl
            · rw [hm1_ne p' hph]
              exact hpdom l (List.mem_cons_of_mem _ hl) p' hp')
          (by
            intro l hl lk hlk hpar
            have hlh : l ≠ h := fun he => hht (he ▸ hl)
            rw [hm1_ne l hlh] at hlk
            exact hjoint l (List.mem_cons_of_mem _ hl) lk hlk hpar)
      refine ⟨m', ?_, ?_, ?_, ?_, ?_, ?_⟩
      · rw [List.foldlM_cons, hstep_eq]
        simpa using hfold
      · intro k hk
        have hkh : k ≠ h := fun he => hk (he ▸ hh)
        rw [hframe k (fun hkt => hk (List.mem_cons_of_mem _ hkt)), hm1_ne k hkh]
      · intro k
        rw [hjm k]
        by_cases hk : k = h
        · subst hk
          rw [hm1_h, hlk0, hlk1]
          rfl
        · rw [hm1_ne k hk]
      · intro k
        rw [hvm k]
        by_cases hk : k = h
        · subst hk
          rw [hm1_h, hlk0, hlk1]
          rfl
        · rw [hm1_ne k hk]
      · intro k hknone
        have hkh : k ≠ h := fun he => by rw [he, hstep] at hknone; cases hknone
        rw [hpn k hknone, hm1_ne k hkh]
      · intro l hl p' hp'
        rcases List.mem_cons.mp hl with rfl | hl
        · rw [hstep] at hp'
          have hpp : p' = p := (Option.some_injective _ hp'.symm)
          subst hpp
          have hml : m' l = some lk1 := by
            rw [hframe l hht, hm1_h]
          have hmp : m' p' = some pk0 := by
            have hpt : p' ∉ t := fun hmem => hpnot (List.mem_cons_of_mem _ hmem)
            have hph : p' ≠ l := fun he => hpnot (he ▸ hh)
            rw [hframe p' hpt, hm1_ne p' hph, hpk0]
          exact ⟨lk1, pk0, j0, hml, hmp, hj0, rfl⟩
        · exact hpost l hl p' hp'

/-! The fullfill_link_map pass, as a fold over the traversal order. -/

theorem fullfillFold_spec {P S V I : Type} (A : Alg P S V) (es : List (ℕ × ℕ)) :
    ∀ (ord : List ℕ) (m : ℕ → Option (LinkM P S V I)),
      ord.Nodup →
      (∀ l ∈ ord, (m l).isSome) →
      (∀ l ∈ ord, ∀ p, parentOfEdges es l = some p → (m p).isSome) →
      (∀ l ∈ ord, ∀ lk, m l = some lk → (parentOfEdges es l).isSome → lk.joint.isSome) →
      (∀ l ∈ ord, ∀ lk j, m l = some lk → lk.joint = some j →
        (parentOfEdges es l).isSome → (joint_twistA A j).isSome) →
      ∃ m', List.foldlM (fullfillStep A es) m ord = some m' ∧
        (∀ k, k ∉ ord → m' k = m k) ∧
        (∀ k, (m' k).map LinkM.joint = (m k).map LinkM.joint) ∧
        (∀ l ∈ ord, ∀ p, parentOfEdges es l = some p →
          ∃ lk, m' l = some lk ∧
            lk.space_spatial_screw = A.adjAct lk.global_zero_pose lk.local_spatial_screw) := by
  intro ord
  induction ord with
  | nil =>
    intro m _ _ _ _ _
    exact ⟨m, by simp, fun k _ => rfl, fun k => rfl, by simp⟩
  | cons h t ih =>
    intro m hnd hdom hpdom hjoint htwist
    have hh : h ∈ h :: t := List.mem_cons_self _ _
    have hht : h ∉ t := (List.nodup_cons.mp hnd).1
    rcases hstep : parentOfEdges es h with _ | p
    · have hstep_eq : fullfillStep A es m h = some m := by
        simp [fullfillStep, hstep]
      obtain ⟨m', hfold, hframe, hjm, hpost⟩ :=
        ih m (List.nodup_cons.mp hnd).2
          (fun l hl => hdom l (List.mem_cons_of_mem _ hl))
          (fun l hl => hpdom l (List.mem_cons_of_mem _ hl))
          (fun l hl => hjoint l (List.mem_cons_of_mem _ hl))
          (fun l hl => htwist l (List.mem_cons_of_mem _ hl))
      refine ⟨m', ?_, ?_, hjm, ?_⟩
      · rw [List.foldlM_cons, hstep_eq]
        simpa using hfold
      · intro k hk
        exact hframe k (fun hkt => hk (List.mem_cons_of_mem _ hkt))
      · intro l hl p hp
        rcases List.mem_cons.mp hl with rfl | hl
        · rw [hstep] at hp; cases hp
        · exact hpost l hl p hp
    · have hpm : (m p).isSome := hpdom h hh p hstep
      have hlm : (m h).isSome := hdom h hh
      obtain ⟨pk0, hpk0⟩ := Option.isSome_iff_exists.mp hpm
      obtain ⟨lk0, hlk0⟩ := Option.isSome_iff_exists.mp hlm
      have hjs : lk0.joint.isSome := hjoint h hh lk0 hlk0 (by rw [hstep]; rfl)
      obtain ⟨j0, hj0⟩ := Option.isSome_iff_exists.mp hjs
      have hts : (joint_twistA A j0).isSome :=
        htwist h hh lk0 j0 hlk0 hj0 (by rw [hstep]; rfl)
      obtain ⟨tw0, htw0⟩ := Option.isSome_iff_exists.mp hts
      set lk1 : LinkM P S V I := { lk0 with parent_zero_pose := pose_to_se3A A j0.origin, global_zero_pose := A.pmul pk0.global_zero_pose (pose_to_se3A A j0.origin), local_spatial_screw := tw0, space_spatial_screw := A.adjAct (A.pmul pk0.global_zero_pose (pose_to_se3A A j0.origin)) tw0 } with hlk1
      set m1 : ℕ → Option (LinkM P S V I) := updMap m h lk1 with hm1def
      have hstep_eq : fullfillStep A es m h = some m1 := by
        simp [fullfillStep, hstep, hpk0, hlk0, hj0, htw0, hm1def, hlk1]
      have hm1_ne : ∀ k, k ≠ h → m1 k = m k := by
        intro k hk
        simp [hm1def, updMap, hk]
      have hm1_h : m1 h = some lk1 := by
        simp [hm1def, updMap]
      obtain ⟨m', hfold, hframe, hjm, hpost⟩ :=
        ih m1 (List.nodup_cons.mp hnd).2
          (by
            intro l hl
            have hlh : l ≠ h := fun he => hht (he ▸ hl)
            rw [hm1_ne l hlh]
            exact hdom l (List.mem_cons_of_mem _ hl))
          (by
            intro l hl p' hp'
            by_cases hph : p' = h
            · subst hph
              rw [hm1_h]
              rfl
            · rw [hm1_ne p' hph]
              exact hpdom l (List.mem_cons_of_mem _ hl) p' hp')
          (by
            intro l hl lk hlk hpar
            have hlh : l ≠ h := fun he => hht (he ▸ hl)
            rw [hm1_ne l hlh] at hlk
            exact hjoint l (List.mem_cons_of_mem _ hl) lk hlk hpar)
          (by
            intro l hl lk j hlk hj hpar
            have hlh : l ≠ h := fun he => hht (he ▸ hl)
            rw [hm1_ne l hlh] at hlk
            exact htwist l (List.mem_cons_of_mem _ hl) lk j hlk hj hpar)
      refine ⟨m', ?_, ?_, ?_, ?_⟩
      · rw [List.foldlM_cons, hstep_eq]
        simpa using hfold
      · intro k hk
        have hkh : k ≠ h := fun he => hk (he ▸ hh)
        rw [hframe k (fun hkt => hk (List.mem_cons_of_mem _ hkt)), hm1_ne k hkh]
      · intro k
        rw [hjm k]
        by_cases hk : k = h
        · subst hk
          rw [hm1_h, hlk0, hlk1]
          rfl
        · rw [hm1_ne k hk]
      · intro l hl p' hp'
        rcases List.mem_cons.mp hl with rfl | hl
        · have hml : m' l = some lk1 := by
            rw [hframe l hht, hm1_h]
          exact ⟨lk1, hml, rfl⟩
        · exact hpost l hl p' hp'

/-! The claims. -/

/-- C2: for every tree built from a valid description, the breadth-first
traversal order starting at the root is a permutation of all LinkIds (each
node appears exactly once), and for every edge from a parent to a child the
position of the parent in the order strictly precedes the position of the
child. -/
theorem C2_bfs_order {n : ℕ} {es : List (ℕ × ℕ)} {root : ℕ}
    (h : IsTreeGraph n es root) :
    (bfsList n (childrenOfEdges es) root).Nodup ∧
    (∀ x, x ∈ bfsList n (childrenOfEdges es) root ↔ x < n) ∧
    (bfsList n (childrenOfEdges es) root).Perm (List.range n) ∧
    (∀ c p, c ∈ bfsList n (childrenOfEdges es) root → parentOfEdges es c = some p →
      ∃ i j, i < j ∧ (bfsList n (childrenOfEdges es) root).get? i = some p ∧
        (bfsList n (childrenOfEdges es) root).get? j = some c) := by
  refine ⟨bfsTree_nodup, bfsTree_mem h, ?_, ?_⟩
  · refine (List.perm_ext_iff_of_nodup bfsTree_nodup (List.nodup_range n)).mpr ?_
    intro a
    rw [bfsTree_mem h a, List.mem_range]
  · intro c p hc hp
    obtain ⟨l₁, l₂, hsplit⟩ := List.append_of_mem hc
    have hpl : p ∈ l₁ := bfsTree_parent_in_prefix h l₁ c l₂ hsplit p hp
    obtain ⟨i, hi⟩ := List.mem_iff_get?.mp hpl
    have hilt : i < l₁.length := by
      rcases List.get?_eq_some.mp hi with ⟨hlt, _⟩
      exact hlt
    refine ⟨i, l₁.length, hilt, ?_, ?_⟩
    · rw [hsplit, List.get?_append hilt]
      exact hi
    · rw [hsplit, List.get?_append_right (le_refl _), Nat.sub_self]
      rfl

/-- C1: for every built tree and every assignment of joint values, one
move_joint pass leaves the global pose of the root at the identity and
gives every non root link the global pose of its parent composed with
relative_pose, where relative_pose is the zero configuration transform
composed with the exponential of the motion screw scaled by the joint
value, degenerating to the zero configuration transform alone when the
joint has no motion screw. -/
theorem C1_move_joint_propagation {P S V : Type} (A : Alg P S V) (g : MBG P S V)
    (htree : IsTreeGraph g.n g.edges g.root_index)
    (hdom : ∀ x, x < g.n → (g.link_map x).isSome)
    (hjoint : ∀ x, x < g.n → ∀ lk, g.link_map x = some lk →
      (parentOfEdges g.edges x).isSome → lk.joint.isSome)
    (hroot : (g.link_map g.root_index).map LinkL.global_pose = some A.pid) :
    ∃ g', g.move_joint A = some g' ∧
      (g'.link_map g.root_index).map LinkL.global_pose = some A.pid ∧
      (∀ l p, l < g.n → parentOfEdges g.edges l = some p →
        ∃ lk pk j, g'.link_map l = some lk ∧ g'.link_map p = some pk ∧
          lk.joint = some j ∧
          lk.global_pose = A.pmul pk.global_pose (relative_poseA A j lk.joint_value)) ∧
      (∀ j v, joint_screwA A j = none →
        relative_poseA A j v = joint_relative_poseA A j) ∧
      (∀ j s v, joint_screwA A j = some s →
        relative_poseA A j v = A.pmul (joint_relative_poseA A j) (A.pexp (A.smul s v))) := by
  have hmem := bfsTree_mem htree
  obtain ⟨m', hfold, hframe, hjm, hvm, hpn, hpost⟩ :=
    moveFold_spec A g.edges (bfsList g.n (childrenOfEdges g.edges) g.root_index) g.link_map
      bfsTree_nodup
      (bfsTree_parent_not_after htree)
      (fun l hl => hdom l ((hmem l).mp hl))
      (fun l hl p hp =>
        hdom p (htree.edge_bound _ (parentOfEdges_mem g.edges l p hp)).1)
      (fun l hl lk hlk hpar => hjoint l ((hmem l).mp hl) lk hlk hpar)
  refine ⟨{ g with link_map := m' }, ?_, ?_, ?_, ?_, ?_⟩
  · rw [MBG.move_joint]
    rw [hfold]
    rfl
  · show (m' g.root_index).map LinkL.global_pose = some A.pid
    rw [hpn g.root_index htree.root_free]
    exact hroot
  · intro l p hl hp
    exact hpost l ((hmem l).mpr hl) p hp
  · intro j v hnone
    rw [relative_poseA, hnone]
  · intro j s v hsome
    rw [relative_poseA, hsome]

/-- C4: after one full fullfill_link_map pass over the breadth first order
of a built tree, every non root link carries a global motion screw equal to
the adjoint action of its global pose applied to its local motion screw. -/
theorem C4_global_screw_adjoint {P S V I : Type} (A : Alg P S V)
    {n root : ℕ} {es : List (ℕ × ℕ)} (m : ℕ → Option (LinkM P S V I))
    (htree : IsTreeGraph n es root)
    (hdom : ∀ x, x < n → (m x).isSome)
    (hjoint : ∀ x, x < n → ∀ lk, m x = some lk →
      (parentOfEdges es x).isSome → lk.joint.isSome)
    (htwist : ∀ x, x < n → ∀ lk j, m x = some lk → lk.joint = some j →
      (parentOfEdges es x).isSome → (joint_twistA A j).isSome) :
    ∃ m', fullfill_link_map A es m (bfsList n (childrenOfEdges es) root) = some m' ∧
      ∀ l p, l < n → parentOfEdges es l = some p →
        ∃ lk, m' l = some lk ∧
          lk.space_spatial_screw = A.adjAct lk.global_zero_pose lk.local_spatial_screw := by
  have hmem := bfsTree_mem htree
  obtain ⟨m', hfold, _, _, hpost⟩ :=
    fullfillFold_spec A es (bfsList n (childrenOfEdges es) root) m
      bfsTree_nodup
      (fun l hl => hdom l ((hmem l).mp hl))
      (fun l hl p hp =>
        hdom p (htree.edge_bound _ (parentOfEdges_mem es l p hp)).1)
      (fun l hl lk hlk hpar => hjoint l ((hmem l).mp hl) lk hlk hpar)
      (fun l hl lk j hlk hj hpar => htwist l ((hmem l).mp hl) lk j hlk hj hpar)
  exact ⟨m', hfold, fun l p hl hp => hpost l ((hmem l).mpr hl) p hp⟩

/-- Witness for C2 on a concrete three node tree with a branching root. -/
theorem C2_bfs_order_witness :
    (bfsList 3 (childrenOfEdges [(0, 1), (0, 2)]) 0).Nodup ∧
    (∀ x, x ∈ bfsList 3 (childrenOfEdges [(0, 1), (0, 2)]) 0 ↔ x < 3) ∧
    (bfsList 3 (childrenOfEdges [(0, 1), (0, 2)]) 0).Perm (List.range 3) ∧
    (∀ c p, c ∈ bfsList 3 (childrenOfEdges [(0, 1), (0, 2)]) 0 →
      parentOfEdges [(0, 1), (0, 2)] c = some p →
      ∃ i j, i < j ∧ (bfsList 3 (childrenOfEdges [(0, 1), (0, 2)]) 0).get? i = some p ∧
        (bfsList 3 (childrenOfEdges [(0, 1), (0, 2)]) 0).get? j = some c) :=
  C2_bfs_order
    { root_lt := by decide
      edge_bound := by decide
      coh := by
        intro p c hp hc
        interval_cases p
        · simp [childrenOfEdges] at hc
          rcases hc with rfl | rfl <;> decide
        · simp [childrenOfEdges] at hc
        · simp [childrenOfEdges] at hc
      root_free := by decide
      reach := by
        intro x hx
        interval_cases x
        · exact Reaches.refl
        · exact Reaches.step Reaches.refl (by decide)
        · exact Reaches.step Reaches.refl (by decide) }

/-- Witness for C1 on the concrete two link chain state. -/
theorem C1_move_joint_propagation_witness :
    ∃ g', gW.move_joint AlgQ = some g' ∧
      (g'.link_map gW.root_index).map LinkL.global_pose = some AlgQ.pid ∧
      (∀ l p, l < gW.n → parentOfEdges gW.edges l = some p →
        ∃ lk pk j, g'.link_map l = some lk ∧ g'.link_map p = some pk ∧
          lk.joint = some j ∧
          lk.global_pose = AlgQ.pmul pk.global_pose (relative_poseA AlgQ j lk.joint_value)) ∧
      (∀ j v, joint_screwA AlgQ j = none →
        relative_poseA AlgQ j v = joint_relative_poseA AlgQ j) ∧
      (∀ j s v, joint_screwA AlgQ j = some s →
        relative_poseA AlgQ j v = AlgQ.pmul (joint_relative_poseA AlgQ j)
          (AlgQ.pexp (AlgQ.smul s v))) :=
  C1_move_joint_propagation AlgQ gW
    { root_lt := by decide
      edge_bound := by decide
      coh := by
        intro p c hp hc
        have hp' : p < 2 := hp
        interval_cases p
        · simp [childrenOfEdges] at hc
          subst hc
          decide
        · simp [childrenOfEdges] at hc
      root_free := by decide
      reach := by
        intro x hx
        have hx' : x < 2 := hx
        interval_cases x
        · exact Reaches.refl
        · exact Reaches.step Reaches.refl (by decide) }
    (by decide)
    (by
      intro x hx lk hlk hpar
      have hx' : x < 2 := hx
      interval_cases x
      · simp [gW, parentOfEdges] at hpar
      · simp [gW] at hlk
        simp [← hlk, mkLinkL])
    rfl

/-- Witness for C4 on the concrete two link chain state of the Model path. -/
theorem C4_global_screw_adjoint_witness :
    ∃ m', fullfill_link_map AlgQ [(0, 1)] mW (bfsList 2 (childrenOfEdges [(0, 1)]) 0) = some m' ∧
      ∀ l p, l < 2 → parentOfEdges [(0, 1)] l = some p →
        ∃ lk, m' l = some lk ∧
          lk.space_spatial_screw = AlgQ.adjAct lk.global_zero_pose lk.local_spatial_screw :=
  C4_global_screw_adjoint AlgQ mW
    { root_lt := by decide
      edge_bound := by decide
      coh := by
        intro p c hp hc
        interval_cases p
        · simp [childrenOfEdges] at hc
          subst hc
          decide
        · simp [childrenOfEdges] at hc
      root_free := by decide
      reach := by
        intro x hx
        interval_cases x
        · exact Reaches.refl
        · exact Reaches.step Reaches.refl (by decide) }
    (by decide)
    (by
      intro x hx lk hlk hpar
      interval_cases x
      · simp [mW, parentOfEdges] at hpar
      · simp [mW] at hlk
        simp [← hlk, mkLinkM])
    (by
      intro x hx lk j hlk hj hpar
      interval_cases x
      · simp [mW, parentOfEdges] at hpar
      · simp [mW] at hlk
        rw [← hlk] at hj
        simp [mkLinkM] at hj
        subst hj
        decide)

/-! The joint motion model over the reals. -/

theorem normSq_div_self (x y z : ℝ) (h : Real.sqrt (x * x + y * y + z * z) ≠ 0) :
    (x / Real.sqrt (x * x + y * y + z * z)) ^ 2
      + (y / Real.sqrt (x * x + y * y + z * z)) ^ 2
      + (z / Real.sqrt (x * x + y * y + z * z)) ^ 2 = 1 := by
  have hs : (0 : ℝ) ≤ x * x + y * y + z * z :=
    add_nonneg (add_nonneg (mul_self_nonneg x) (mul_self_nonneg y)) (mul_self_nonneg z)
  have hsq : Real.sqrt (x * x + y * y + z * z) ^ 2 = x * x + y * y + z * z :=
    Real.sq_sqrt hs
  have hne : x * x + y * y + z * z ≠ 0 := by
    intro h0
    exact h (by rw [h0, Real.sqrt_zero])
  rw [div_pow, div_pow, div_pow, div_add_div_same, div_add_div_same, hsq]
  have hxyz : x ^ 2 + y ^ 2 + z ^ 2 = x * x + y * y + z * z := by ring
  rw [hxyz, div_self hne]

/-- C3 (corrected): for a revolute or continuous joint with axis of nonzero
norm, both joint_twist and joint_screw produce the twist whose angular part
is the axis normalised to unit length and whose linear part is zero; for a
prismatic joint with such an axis, joint_twist produces the twist with zero
angular part and normalised linear part, while joint_screw (the lib.rs
variant) produces no screw at all. -/
theorem C3_joint_motion_model (j : JointD ℝ)
    (h : Real.sqrt (j.axis.1 * j.axis.1 + j.axis.2.1 * j.axis.2.1
      + j.axis.2.2 * j.axis.2.2) ≠ 0) :
    ((j.joint_type = .revolute ∨ j.joint_type = .continuous) →
      joint_twistA AlgFR j = some ((j.axis.1 / Real.sqrt (j.axis.1 * j.axis.1 + j.axis.2.1 * j.axis.2.1 + j.axis.2.2 * j.axis.2.2), j.axis.2.1 / Real.sqrt (j.axis.1 * j.axis.1 + j.axis.2.1 * j.axis.2.1 + j.axis.2.2 * j.axis.2.2), j.axis.2.2 / Real.sqrt (j.axis.1 * j.axis.1 + j.axis.2.1 * j.axis.2.1 + j.axis.2.2 * j.axis.2.2)), (0, 0, 0)) ∧
      joint_screwA AlgFR j = joint_twistA AlgFR j ∧
      (j.axis.1 / Real.sqrt (j.axis.1 * j.axis.1 + j.axis.2.1 * j.axis.2.1 + j.axis.2.2 * j.axis.2.2)) ^ 2 + (j.axis.2.1 / Real.sqrt (j.axis.1 * j.axis.1 + j.axis.2.1 * j.axis.2.1 + j.axis.2.2 * j.axis.2.2)) ^ 2 + (j.axis.2.2 / Real.sqrt (j.axis.1 * j.axis.1 + j.axis.2.1 * j.axis.2.1 + j.axis.2.2 * j.axis.2.2)) ^ 2 = 1) ∧
    (j.joint_type = .prismatic →
      joint_twistA AlgFR j = some ((0, 0, 0), (j.axis.1 / Real.sqrt (j.axis.1 * j.axis.1 + j.axis.2.1 * j.axis.2.1 + j.axis.2.2 * j.axis.2.2), j.axis.2.1 / Real.sqrt (j.axis.1 * j.axis.1 + j.axis.2.1 * j.axis.2.1 + j.axis.2.2 * j.axis.2.2), j.axis.2.2 / Real.sqrt (j.axis.1 * j.axis.1 + j.axis.2.1 * j.axis.2.1 + j.axis.2.2 * j.axis.2.2))) ∧
      joint_screwA AlgFR j = none ∧
      (j.axis.1 / Real.sqrt (j.axis.1 * j.axis.1 + j.axis.2.1 * j.axis.2.1 + j.axis.2.2 * j.axis.2.2)) ^ 2 + (j.axis.2.1 / Real.sqrt (j.axis.1 * j.axis.1 + j.axis.2.1 * j.axis.2.1 + j.axis.2.2 * j.axis.2.2)) ^ 2 + (j.axis.2.2 / Real.sqrt (j.axis.1 * j.axis.1 + j.axis.2.1 * j.axis.2.1 + j.axis.2.2 * j.axis.2.2)) ^ 2 = 1) := by
  constructor
  · intro hk
    refine ⟨?_, ?_, normSq_div_self _ _ _ h⟩
    · rcases hk with hk | hk <;> simp [joint_twistA, hk, AlgFR]
    · rcases hk with hk | hk <;> simp [joint_twistA, joint_screwA, hk]
  · intro hk
    refine ⟨?_, ?_, normSq_div_self _ _ _ h⟩
    · simp [joint_twistA, hk, AlgFR]
    · simp [joint_screwA, hk]

/-- Counterexample to C3 as stated: the joint_screw implementation of the
motion model (src/src/lib.rs) produces no twist at all for a prismatic
joint with a perfectly good unit axis, while joint_twist produces one. -/
theorem C3_counterexample :
    joint_screwA AlgQ prismJoint = none ∧ (joint_twistA AlgQ prismJoint).isSome = true := by
  exact ⟨rfl, rfl⟩

/-- Witness for C3 at a revolute joint with axis of length two. -/
theorem C3_joint_motion_model_witness :
    joint_twistA AlgFR revJointR = some ((revJointR.axis.1 / Real.sqrt (revJointR.axis.1 * revJointR.axis.1 + revJointR.axis.2.1 * revJointR.axis.2.1 + revJointR.axis.2.2 * revJointR.axis.2.2), revJointR.axis.2.1 / Real.sqrt (revJointR.axis.1 * revJointR.axis.1 + revJointR.axis.2.1 * revJointR.axis.2.1 + revJointR.axis.2.2 * revJointR.axis.2.2), revJointR.axis.2.2 / Real.sqrt (revJointR.axis.1 * revJointR.axis.1 + revJointR.axis.2.1 * revJointR.axis.2.1 + revJointR.axis.2.2 * revJointR.axis.2.2)), (0, 0, 0)) ∧
    joint_screwA AlgFR revJointR = joint_twistA AlgFR revJointR ∧
    (revJointR.axis.1 / Real.sqrt (revJointR.axis.1 * revJointR.axis.1 + revJointR.axis.2.1 * revJointR.axis.2.1 + revJointR.axis.2.2 * revJointR.axis.2.2)) ^ 2 + (revJointR.axis.2.1 / Real.sqrt (revJointR.axis.1 * revJointR.axis.1 + revJointR.axis.2.1 * revJointR.axis.2.1 + revJointR.axis.2.2 * revJointR.axis.2.2)) ^ 2 + (revJointR.axis.2.2 / Real.sqrt (revJointR.axis.1 * revJointR.axis.1 + revJointR.axis.2.1 * revJointR.axis.2.1 + revJointR.axis.2.2 * revJointR.axis.2.2)) ^ 2 = 1 :=
  (C3_joint_motion_model revJointR
    (by
      show Real.sqrt ((0 : ℝ) * 0 + 0 * 0 + 2 * 2) ≠ 0
      rw [Real.sqrt_ne_zero']
      norm_num)).1 (Or.inl rfl)

/-! The spatial inertia transform. -/

theorem ib_eq (inertia : Mat3) (mass : ℚ) :
    overwriteTopLeft (Matrix.diagonal fun _ => mass) inertia
      = Matrix.fromBlocks inertia 0 0 (mass • (1 : Mat3)) := by
  ext i j
  rcases i with a | a <;> rcases j with b | b
  · simp [overwriteTopLeft]
  · simp [overwriteTopLeft, Matrix.diagonal]
  · simp [overwriteTopLeft, Matrix.diagonal]
  · by_cases hab : a = b
    · subst hab
      simp [overwriteTopLeft, Matrix.diagonal, Matrix.one_apply]
    · simp [overwriteTopLeft, Matrix.diagonal, Matrix.one_apply, hab, Sum.inr.injEq]

/-- C5: to_local_spatial_inertial is the congruence of the block diagonal
spatial inertia with the adjoint matrix of the inverse of the inertial
frame pose, and for a symmetric input inertia tensor its output is
symmetric. -/
theorem C5_to_local_spatial_inertial (T : SE3Q) (inertia : Mat3) (mass : ℚ) :
    to_local_spatial_inertial T inertia mass =
      (SE3Q.adjointM (SE3Q.inv T)).transpose *
        Matrix.fromBlocks inertia 0 0 (mass • (1 : Mat3)) * SE3Q.adjointM (SE3Q.inv T) ∧
    (inertia.transpose = inertia →
      (to_local_spatial_inertial T inertia mass).transpose
        = to_local_spatial_inertial T inertia mass) := by
  have h1 : to_local_spatial_inertial T inertia mass =
      (SE3Q.adjointM (SE3Q.inv T)).transpose *
        Matrix.fromBlocks inertia 0 0 (mass • (1 : Mat3)) * SE3Q.adjointM (SE3Q.inv T) := by
    rw [to_local_spatial_inertial, ib_eq]
  refine ⟨h1, ?_⟩
  intro hsym
  rw [h1, Matrix.transpose_mul, Matrix.transpose_mul, Matrix.transpose_transpose,
    Matrix.fromBlocks_transpose, Matrix.transpose_smul, Matrix.transpose_one, hsym,
    Matrix.mul_assoc]
  simp [Matrix.transpose_zero]

/-- Witness for C5 at a unit offset pose, the identity inertia tensor and
mass five. -/
theorem C5_to_local_spatial_inertial_witness :
    (to_local_spatial_inertial se3qW 1 5).transpose = to_local_spatial_inertial se3qW 1 5 :=
  (C5_to_local_spatial_inertial se3qW 1 5).2 Matrix.transpose_one

/-! Build time validation. -/

/-- Counterexample to C6 as stated: on a description in which two joints
claim the same child link, both build entry points return a complete tree
instead of a MalformedDescription error value. -/
theorem C6_counterexample :
    (parse_robot AlgQ dupChildRobot).isSome = true ∧
    (fromUrdfRobot AlgQ siQ dupChildRobot).isSome = true :=
  ⟨rfl, rfl⟩

/-- C6 (corrected): the build performs no description validation and no
MalformedDescription value exists. Two joints claiming the same child are
resolved silently to the first matching joint; a description with no root
makes parse_robot panic while the Model path falls back to link id zero
and still builds; an unresolvable link name makes parse_robot panic; a
description with several parentless links silently takes the first as the
root. -/
theorem C6_build_validation :
    ((parse_robot AlgQ dupChildRobot).bind
      (fun g => (g.link_map 1).bind LinkL.joint)).map JointD.name = some "j1" ∧
    parse_robot AlgQ noRootRobot = none ∧
    (fromUrdfRobot AlgQ siQ noRootRobot).isSome = true ∧
    parse_robot AlgQ badNameRobot = none ∧
    (parse_robot AlgQ twoRootsRobot).isSome = true ∧
    (parse_robot AlgQ twoRootsRobot).map MBG.root_index = some 0 :=
  ⟨rfl, rfl, rfl, rfl, rfl, rfl⟩

/-- Counterexample to C7 as stated: a revolute joint with the zero axis
passes through both build entry points, and the motion model produces a
screw for it (in f64 its components are NaN; here the division by the zero
norm is total), instead of any DegenerateAxis failure. -/
theorem C7_counterexample :
    (parse_robot AlgQ zeroAxisRobot).isSome = true ∧
    (fromUrdfRobot AlgQ siQ zeroAxisRobot).isSome = true ∧
    (joint_twistA AlgQ zeroAxisJoint).isSome = true :=
  ⟨rfl, rfl, rfl⟩

/-- C7 (corrected): the motion model normalises unconditionally; for every
revolute, continuous or prismatic joint it produces a screw, whatever the
axis, and no degenerate axis check exists anywhere in the build. -/
theorem C7_no_degenerate_axis_check {P S V : Type} (A : Alg P S V) (j : JointD V)
    (h : j.joint_type = .revolute ∨ j.joint_type = .continuous ∨ j.joint_type = .prismatic) :
    (joint_twistA A j).isSome = true := by
  rcases h with h | h | h <;> simp [joint_twistA, h]

/-- Witness for C7 at the zero axis revolute joint. -/
theorem C7_no_degenerate_axis_check_witness :
    (joint_twistA AlgQ zeroAxisJoint).isSome = true :=
  C7_no_degenerate_axis_check AlgQ zeroAxisJoint (Or.inl rfl)

/-- Counterexample to C9 as stated: a joint of the floating kind makes the
joint motion model of the Model path panic, and the whole Model build
crash, instead of producing the zero twist. -/
theorem C9_counterexample :
    joint_twistA AlgQ floatJoint = none ∧ fromUrdfRobot AlgQ siQ floatingRobot = none :=
  ⟨rfl, rfl⟩

/-- C9 (corrected): a fixed joint produces the zero twist in joint_twist
and no screw in joint_screw; the unrecognised kinds (floating, planar,
spherical) panic in joint_twist, crashing the Model build, while
joint_screw treats them as motionless, so the MultiBodyGraph build still
succeeds on such a description. -/
theorem C9_fixed_and_unrecognized :
    (∀ (P S V : Type) (A : Alg P S V) (j : JointD V), j.joint_type = .fixed →
      joint_twistA A j = some A.szero ∧ joint_screwA A j = none) ∧
    (∀ (P S V : Type) (A : Alg P S V) (j : JointD V),
      j.joint_type = .floating ∨ j.joint_type = .planar ∨ j.joint_type = .spherical →
      joint_twistA A j = none ∧ joint_screwA A j = none) ∧
    (parse_robot AlgQ floatingRobot).isSome = true := by
  refine ⟨?_, ?_, rfl⟩
  · intro P S V A j h
    exact ⟨by simp [joint_twistA, h], by simp [joint_screwA, h]⟩
  · intro P S V A j h
    rcases h with h | h | h <;>
      exact ⟨by simp [joint_twistA, h], by simp [joint_screwA, h]⟩

/-- Witness for C9 at a fixed and at a floating joint. -/
theorem C9_fixed_and_unrecognized_witness :
    joint_twistA AlgQ fixJoint = some AlgQ.szero ∧ joint_twistA AlgQ floatJoint = none :=
  ⟨(C9_fixed_and_unrecognized.1 _ _ _ AlgQ fixJoint rfl).1,
    (C9_fixed_and_unrecognized.2.1 _ _ _ AlgQ floatJoint (Or.inl rfl)).1⟩

/-! The temporary map of the Model path. -/

theorem dedupKeys_subset {β : Type} :
    ∀ l : List (Option String × β), ∀ x ∈ dedupKeys l, x ∈ l := by
  intro l
  induction l with
  | nil => simp [dedupKeys]
  | cons e rest ih =>
    intro x hx
    rw [dedupKeys] at hx
    by_cases hc : rest.any (fun p => p.1 == e.1)
    · rw [if_pos hc] at hx
      exact List.mem_cons_of_mem _ (ih x hx)
    · rw [if_neg hc] at hx
      rcases List.mem_cons.mp hx with rfl | hx
      · exact List.mem_cons_self _ _
      · exact List.mem_cons_of_mem _ (ih x hx)

theorem dedupKeys_pairwise {β : Type} :
    ∀ l : List (Option String × β),
      (dedupKeys l).Pairwise (fun a b => a.1 ≠ b.1) := by
  intro l
  induction l with
  | nil => simp [dedupKeys]
  | cons e rest ih =>
    rw [dedupKeys]
    by_cases hc : rest.any (fun p => p.1 == e.1)
    · rw [if_pos hc]
      exact ih
    · rw [if_neg hc]
      refine List.Pairwise.cons ?_ ih
      intro b hb heq
      have hbr : b ∈ rest := dedupKeys_subset rest b hb
      have := (List.any_eq_false.mp (Bool.of_not_eq_true hc)) b hbr
      simp only [beq_iff_eq] at this
      exact this heq.symm

/-- C10: the temporary map of the Model path is keyed by the parent link
name of each link joint, with at most one surviving entry per distinct
key; on a branching description with two joints sharing the parent base,
one sibling entry is silently dropped and the built Model has two links
where the description declares three. -/
theorem C10_temp_link_map_drops_siblings :
    (∀ r : RobotD ℚ, (temp_link_map r).Pairwise (fun a b => a.1 ≠ b.1)) ∧
    (temp_link_map branchRobot).map Prod.fst = [none, some "base"] ∧
    (fromUrdfRobot AlgQ siQ branchRobot).map (fun mo => mo.links.length) = some 2 ∧
    branchRobot.links.length = 3 :=
  ⟨fun r => dedupKeys_pairwise (tempPairs r), rfl, rfl, rfl⟩

/-! The set_joint_value mutation. -/

theorem find?_congr {α : Type} (p q : α → Bool) :
    ∀ l : List α, (∀ a ∈ l, p a = q a) → l.find? p = l.find? q := by
  intro l
  induction l with
  | nil => intro _; rfl
  | cons a l ih =>
    intro h
    have ha := h a (List.mem_cons_self _ _)
    rw [List.find?_cons, List.find?_cons, ha]
    cases q a with
    | true => rfl
    | false => exact ih fun b hb => h b (List.mem_cons_of_mem _ hb)

theorem findJointIdx_update {P S V : Type} (g : MBG P S V) (i : ℕ)
    (lk : LinkL P S V) (v : V) (hlk : g.link_map i = some lk) (nm : String) :
    findJointIdx { g with link_map := updMap g.link_map i { lk with joint_value := v } } nm
      = findJointIdx g nm := by
  rw [findJointIdx, findJointIdx]
  refine find?_congr _ _ _ ?_
  intro k _
  by_cases hk : k = i
  · subst hk
    simp [updMap, hlk]
  · simp [updMap, hk]

/-- C8 (corrected): when the joint value mapping contains a name unknown to
the tree, set_joint_value panics at that entry (the error case of the
embedding); the state at the panic has every global pose and every joint
screw unchanged, but mapping entries processed before the panic have
already been applied, so the update is not atomic. -/
theorem C8_set_joint_value_unknown_name {P S V : Type} :
    ∀ (vals : List (String × V)) (g : MBG P S V),
      (∃ pr ∈ vals, findJointIdx g pr.1 = none) →
      ∃ g', g.set_joint_value vals = Except.error g' ∧
        g'.n = g.n ∧ g'.edges = g.edges ∧
        (∀ k, (g'.link_map k).map LinkL.global_pose
          = (g.link_map k).map LinkL.global_pose) ∧
        (∀ k, (g'.link_map k).map LinkL.joint_screw
          = (g.link_map k).map LinkL.joint_screw) := by
  intro vals
  induction vals with
  | nil =>
    intro g h
    rcases h with ⟨pr, hpr, _⟩
    simp at hpr
  | cons nv rest ih =>
    intro g h
    obtain ⟨nm, v⟩ := nv
    rcases hf : findJointIdx g nm with _ | i
    · exact ⟨g, by rw [MBG.set_joint_value, setJointsAux, hf], rfl, rfl,
        fun k => rfl, fun k => rfl⟩
    · rcases hmi : g.link_map i with _ | lk
      · exfalso
        have hpred := List.find?_some hf
        rw [hmi] at hpred
        simp at hpred
      · have hrest : ∃ pr ∈ rest,
            findJointIdx { g with link_map := updMap g.link_map i { lk with joint_value := v } } pr.1 = none := by
          rcases h with ⟨pr, hpr, hprf⟩
          rcases List.mem_cons.mp hpr with rfl | hpr
          · rw [hf] at hprf
            cases hprf
          · exact ⟨pr, hpr, by rw [findJointIdx_update g i lk v hmi pr.1]; exact hprf⟩
        obtain ⟨g', herr, hn, hed, hpose, hscrew⟩ := ih _ hrest
        refine ⟨g', ?_, hn, hed, ?_, ?_⟩
        · simp only [MBG.set_joint_value, setJointsAux, hf, hmi]
          exact herr
        · intro k
          rw [hpose k]
          by_cases hk : k = i
          · subst hk
            simp [updMap, hmi]
          · simp [updMap, hk]
        · intro k
          rw [hscrew k]
          by_cases hk : k = i
          · subst hk
            simp [updMap, hmi]
          · simp [updMap, hk]

/-- Counterexample to C8 as stated: on the two link chain, the call with
the known name j1 followed by an unknown name panics (no UnknownJointName
value exists), and at the panic the joint value of the arm link has
already been changed from zero to five: part of the update was applied. -/
theorem C8_counterexample : c8Observation = some (some 0, some 5) := by decide

/-- Witness for C8 on the empty tree and a singleton mapping with an
unknown name. -/
theorem C8_set_joint_value_unknown_name_witness :
    ∃ g', mbgEmpty.set_joint_value [("x", (1 : ℚ))] = Except.error g' ∧
      g'.n = mbgEmpty.n ∧ g'.edges = mbgEmpty.edges ∧
      (∀ k, (g'.link_map k).map LinkL.global_pose
        = (mbgEmpty.link_map k).map LinkL.global_pose) ∧
      (∀ k, (g'.link_map k).map LinkL.joint_screw
        = (mbgEmpty.link_map k).map LinkL.joint_screw) :=
  C8_set_joint_value_unknown_name [("x", (1 : ℚ))] mbgEmpty
    ⟨("x", (1 : ℚ)), List.mem_singleton_self _, rfl⟩

end RobotParse
